import Mathlib

/-!
Verification of the binary-search-tree engine contained in
`tests/test_all_trees.py` (bintrees 2.0.2; Python classes `_ABCTree`,
`CPYTHON_ABCTree`, `BinaryTree`, `Node`).

Keys are modelled as `Nat`.  Python values are modelled as `Option Nat`,
with `none` standing for Python's `None`; this matters because in this
copy of the source the `raise KeyError(str(key))` line of `get_value` is
commented out, so a lookup of an absent key falls through the `while`
loop and returns Python's `None`.  Python's `KeyError` is modelled as
`Error.KeyNotFound` and `ValueError` as `Error.EmptyCollection`.
-/

namespace BinTreesPy

/-- Python values; `none` models Python's `None`. -/
abbrev PyVal := Option Nat

/-- Error kinds surfaced to callers: `KeyNotFound` models Python's
`KeyError`, `EmptyCollection` models `ValueError`. -/
inductive Error where
  | KeyNotFound
  | EmptyCollection
deriving DecidableEq, Repr

/-- Decidable equality of results, to evaluate the modelled operations
on concrete inputs. -/
instance {ε α : Type} [DecidableEq ε] [DecidableEq α] :
    DecidableEq (Except ε α) := fun x y =>
  match x, y with
  | .error a, .error b =>
    if h : a = b then .isTrue (by rw [h]) else .isFalse (by intro hx; cases hx; exact h rfl)
  | .error _, .ok _ => .isFalse (by intro hx; cases hx)
  | .ok _, .error _ => .isFalse (by intro hx; cases hx)
  | .ok a, .ok b =>
    if h : a = b then .isTrue (by rw [h]) else .isFalse (by intro hx; cases hx; exact h rfl)

/-- The node structure (`Node` in the source): a key, a value and two
child subtrees; `leaf` stands for a `None` child reference. -/
inductive Tree where
  | leaf
  | node (left : Tree) (key : Nat) (value : PyVal) (right : Tree)
deriving DecidableEq, Repr

namespace Tree

/-- Left child (`node.left`); `leaf` for the empty tree. -/
def left : Tree → Tree
  | .leaf => .leaf
  | .node l _ _ _ => l

/-- Right child (`node.right`); `leaf` for the empty tree. -/
def right : Tree → Tree
  | .leaf => .leaf
  | .node _ _ _ r => r

/-- Whether the (sub)tree is the `None` reference. -/
def isLeaf : Tree → Bool
  | .leaf => true
  | .node _ _ _ _ => false

/-- Number of nodes reachable from this root. -/
def size : Tree → Nat
  | .leaf => 0
  | .node l _ _ r => 1 + size l + size r

/-- In-order traversal of the `(key, value)` items, ascending by key for
a search tree.  This is the item sequence produced by a full
`iter_items()` walk. -/
def inorder : Tree → List (Nat × PyVal)
  | .leaf => []
  | .node l k v r => inorder l ++ (k, v) :: inorder r

/-- The in-order key sequence. -/
def keysList (t : Tree) : List Nat := t.inorder.map Prod.fst

end Tree

/-- `CPYTHON_ABCTree.get_value`: descend comparing keys; return the
stored value on an exact match.  In this source the `raise KeyError`
after the loop is commented out, so falling off the tree returns
Python's `None` (`.ok none`); no code path raises. -/
def get_value : Tree → Nat → Except Error PyVal
  | .leaf, _ => .ok none
  | .node l key v r, k =>
    if k = key then .ok v
    else if k < key then get_value l k
    else get_value r k

/-- `_ABCTree.__contains__`: call `get_value` inside `try`, return
`True` unless a `KeyError` escapes. -/
def containsKey (t : Tree) (k : Nat) : Bool :=
  match get_value t k with
  | .ok _ => true
  | .error _ => false

/-- `BinaryTree.insert` together with `BinaryTree._new_node`: returns
the new tree and the number of nodes created (`_new_node` increments
`_count` exactly when a node is attached; overwriting an existing key
creates no node).  The descent mirrors the source: equality is tested
first, then `direction = 0 if key <= node.key else 1`. -/
def insert : Tree → Nat → PyVal → Tree × Nat
  | .leaf, k, v => (.node .leaf k v .leaf, 1)
  | .node l key val r, k, v =>
    if k = key then (.node l key v r, 0)
    else if k ≤ key then
      let p := insert l k v
      (.node p.1 key val r, p.2)
    else
      let p := insert r k v
      (.node l key val p.1, p.2)

/-- The replacement-detaching walk inside `BinaryTree.remove`'s
two-children case: follow `left` links from the argument, unhook the
leftmost node (re-attaching its right child in its place) and return
its `(key, value)` together with the remaining subtree.  The source
only runs it on a non-empty subtree; the `leaf` case is unreachable. -/
def detachMin : Tree → (Nat × PyVal) × Tree
  | .leaf => ((0, none), .leaf)
  | .node l k v r =>
    match l with
    | .leaf => ((k, v), r)
    | .node _ _ _ _ =>
      let p := detachMin l
      (p.1, .node p.2 k v r)

/-- `BinaryTree.remove`: raise `KeyError` when the descent dead-ends
(absent key or empty tree).  On a match: with two children, replace the
node's key/value by the smallest item of the right subtree and unhook
that item's node; otherwise splice the node's only child (or `None`)
into its slot. -/
def remove : Tree → Nat → Except Error Tree
  | .leaf, _ => .error .KeyNotFound
  | .node l key v r, k =>
    if k = key then
      if !l.isLeaf && !r.isLeaf then
        let p := detachMin r
        .ok (.node l p.1.1 p.1.2 p.2)
      else
        .ok (if l.isLeaf then r else l)
    else if k < key then
      match remove l k with
      | .ok l2 => .ok (.node l2 key v r)
      | .error e => .error e
    else
      match remove r k with
      | .ok r2 => .ok (.node l key v r2)
      | .error e => .error e

/-- The tree object's mutable state: `self._root` and `self._count`. -/
structure TreeState where
  root : Tree
  count : Nat
deriving DecidableEq, Repr

/-- A freshly constructed empty tree (`__init__` with no items). -/
def TreeState.empty : TreeState := ⟨.leaf, 0⟩

/-- `is_empty`: `self.count == 0`. -/
def is_empty (s : TreeState) : Bool := s.count == 0

/-- `insert` at the state level: `_count` grows by the number of nodes
`_new_node` created. -/
def insertOp (s : TreeState) (k : Nat) (v : PyVal) : TreeState :=
  let p := insert s.root k v
  ⟨p.1, s.count + p.2⟩

/-- `remove` at the state level: on success `_count` is decremented by
one; on `KeyError` nothing was mutated before the raise, so no new
state is produced. -/
def removeOp (s : TreeState) (k : Nat) : Except Error TreeState :=
  match remove s.root k with
  | .ok t => .ok ⟨t, s.count - 1⟩
  | .error e => .error e

/-- `clear`: release every node and reset `_root` and `_count`. -/
def clearOp (_ : TreeState) : TreeState := ⟨.leaf, 0⟩

/-- The leftmost node's item (`min_item`'s descent loop); junk on the
empty tree, which the source guards against beforehand. -/
def minNode : Tree → Nat × PyVal
  | .leaf => (0, none)
  | .node l k v _ =>
    match l with
    | .leaf => (k, v)
    | .node _ _ _ _ => minNode l

/-- The rightmost node's item (`max_item`'s descent loop). -/
def maxNode : Tree → Nat × PyVal
  | .leaf => (0, none)
  | .node _ k v r =>
    match r with
    | .leaf => (k, v)
    | .node _ _ _ _ => maxNode r

/-- `min_item`: raise `ValueError` when empty, else descend all-left. -/
def min_item (s : TreeState) : Except Error (Nat × PyVal) :=
  if is_empty s then .error .EmptyCollection else .ok (minNode s.root)

/-- `max_item`: raise `ValueError` when empty, else descend all-right. -/
def max_item (s : TreeState) : Except Error (Nat × PyVal) :=
  if is_empty s then .error .EmptyCollection else .ok (maxNode s.root)

/-- `pop_min`: `min_item()` then `remove` its key. -/
def pop_min (s : TreeState) : Except Error ((Nat × PyVal) × TreeState) :=
  match min_item s with
  | .error e => .error e
  | .ok kv =>
    match removeOp s kv.1 with
    | .ok s2 => .ok (kv, s2)
    | .error e => .error e

/-- `pop_max`: `max_item()` then `remove` its key. -/
def pop_max (s : TreeState) : Except Error ((Nat × PyVal) × TreeState) :=
  match max_item s with
  | .error e => .error e
  | .ok kv =>
    match removeOp s kv.1 with
    | .ok s2 => .ok (kv, s2)
    | .error e => .error e

/-- `pop_item`'s descent: always go left, else right, until a leaf node
is reached. -/
def extremeNode : Tree → Nat × PyVal
  | .leaf => (0, none)
  | .node l k v r =>
    match l with
    | .node _ _ _ _ => extremeNode l
    | .leaf =>
      match r with
      | .node _ _ _ _ => extremeNode r
      | .leaf => (k, v)

/-- `pop_item`: raise `KeyError` (not `ValueError`) when empty, else
remove and return the extreme leaf reached by the left-then-right
descent. -/
def pop_item (s : TreeState) : Except Error ((Nat × PyVal) × TreeState) :=
  if is_empty s then .error .KeyNotFound
  else
    let kv := extremeNode s.root
    match removeOp s kv.1 with
    | .ok s2 => .ok (kv, s2)
    | .error e => .error e

/-- `CPYTHON_ABCTree.succ_item`'s loop body, with the running candidate
`succ_node`.  Descending left offers the passed node as a new
candidate; descending right records nothing; on an exact match the
leftmost node of the right subtree (when present) is offered last. -/
def succLoop (key : Nat) : Tree → Option (Nat × PyVal) → Except Error (Nat × PyVal)
  | .leaf, _ => .error .KeyNotFound
  | .node l k v r, acc =>
    if key = k then
      match r with
      | .leaf =>
        match acc with
        | none => .error .KeyNotFound
        | some s => .ok s
      | .node _ _ _ _ =>
        let m := minNode r
        match acc with
        | none => .ok m
        | some s => .ok (if m.1 < s.1 then m else s)
    else if key < k then
      succLoop key l
        (match acc with
         | none => some (k, v)
         | some s => if k < s.1 then some (k, v) else some s)
    else
      succLoop key r acc

/-- `succ_item(key)`: run the candidate-tracking descent from the root
with no candidate recorded. -/
def succ_item (t : Tree) (key : Nat) : Except Error (Nat × PyVal) :=
  succLoop key t none

/-- Weight of a pending stack entry of `_iter_items`: popping `t` with
`go_left` false still emits `t`'s item and walks its second-direction
subtree. -/
def stackW (rev : Bool) (t : Tree) : Nat :=
  2 * Tree.size (if rev then t.left else t.right) + 1

/-- Termination measure for the `_iter_items` loop. -/
def iterMeasure (rev : Bool) (node : Tree) (stack : List Tree) (goLeft : Bool) : Nat :=
  (if goLeft then 2 * node.size else stackW rev node)
    + (stack.map (stackW rev)).sum

/-- `CPYTHON_ABCTree._iter_items`: the explicit pending-node stack loop.
`rev` selects the attrgetters, as in `_iter_items_forward` and
`_iter_items_backward`: descend the first direction while `go_left`,
else emit the node when `in_range(node.key)` holds, then walk the other
direction or pop an ancestor; stop when the stack is exhausted.  The
loop is entered on a non-empty tree, so the `leaf` case is junk. -/
def iterLoop (rev : Bool) (p : Nat → Bool) :
    Tree → List Tree → Bool → List (Nat × PyVal)
  | .leaf, _, _ => []
  | .node l k v r, stack, goLeft =>
    if goLeft && !(if rev then r else l).isLeaf then
      iterLoop rev p (if rev then r else l) (.node l k v r :: stack) true
    else
      (if p k then [(k, v)] else []) ++
      (if !(if rev then l else r).isLeaf then
        iterLoop rev p (if rev then l else r) stack true
      else
        match stack with
        | [] => []
        | s :: rest => iterLoop rev p s rest false)
  termination_by t stack goLeft => iterMeasure rev t stack goLeft
  decreasing_by
  all_goals simp_wf
  · have hg : goLeft = true := by
      rcases goLeft with _ | _ <;> simp_all
    subst hg
    rcases rev with _ | _ <;>
      simp [iterMeasure, stackW, Tree.size, Tree.left, Tree.right] <;> omega
  · rcases goLeft with _ | _
    · rcases rev with _ | _ <;>
        simp [iterMeasure, stackW, Tree.size, Tree.left, Tree.right] <;> omega
    · have hc : (if rev then r else l).isLeaf = true := by
        rcases hx : (if rev then r else l).isLeaf with _ | _ <;> simp_all
      have h0 : (if rev then r else l).size = 0 := by
        rcases hif : (if rev then r else l) with _ | _ <;>
          simp_all [Tree.isLeaf, Tree.size]
      rcases rev with _ | _ <;>
        simp_all [iterMeasure, stackW, Tree.size, Tree.left, Tree.right] <;>
        omega
  · rcases rev with _ | _ <;> rcases goLeft with _ | _ <;>
      simp [iterMeasure, stackW, Tree.size, Tree.left, Tree.right] <;> omega

/-- `CPYTHON_ABCTree._get_in_range_func`: both bounds absent yields the
constant-true filter; otherwise an absent `start_key` is replaced by
`self.min_key()` (the loop is only run on a non-empty tree), and an
absent `end_key` drops the upper test. -/
def in_range_fun (s : TreeState) (start_key end_key : Option Nat) : Nat → Bool :=
  match start_key, end_key with
  | none, none => fun _ => true
  | some a, none => fun x => a ≤ x
  | none, some e => fun x => (minNode s.root).1 ≤ x && x < e
  | some a, some e => fun x => a ≤ x && x < e

/-- `CPYTHON_ABCTree.iter_items`: an empty tree yields the empty
sequence immediately; otherwise run the stack loop from the root with
the range filter built by `_get_in_range_func`. -/
def iter_items (s : TreeState) (start_key end_key : Option Nat) (reverse : Bool) :
    List (Nat × PyVal) :=
  if is_empty s then []
  else iterLoop reverse (in_range_fun s start_key end_key) s.root [] true

/-- `_multi_tree_get`: try `tree[key]` on each tree in order, skipping
a tree only when a `KeyError` escapes; raise `KeyError` when the list
is exhausted. -/
def multi_tree_get : List Tree → Nat → Except Error PyVal
  | [], _ => .error .KeyNotFound
  | t :: rest, k =>
    match get_value t k with
    | .ok v => .ok v
    | .error _ => multi_tree_get rest k

/-- The value that `union`'s item generator pairs with `key`; the
`error` branch is unreachable because `get_value` never raises. -/
def unionValue (t u : Tree) (k : Nat) : PyVal :=
  match multi_tree_get [t, u] k with
  | .ok v => v
  | .error _ => none

/-- `_ABCTree.union` (two operands): the result's key set is the union
of both key sets (`frozenset.union`), and the resulting tree is built
by inserting `(key, _multi_tree_get([self, other], key))` for each key.
The key set is iterated here in first-occurrence order; `frozenset`
iteration order is unspecified in Python and does not affect the
resulting key/value mapping, since each key is inserted once. -/
def union (t u : Tree) : Tree :=
  ((t.keysList ++ u.keysList).dedup).foldl
    (fun acc k => (insert acc k (unionValue t u k)).1) .leaf

/-- `_ABCTree.__getstate__`: `dict(self.items())`, i.e. the full
ascending item sequence. -/
def exportItems (s : TreeState) : List (Nat × PyVal) :=
  iter_items s none none false

/-- `_ABCTree.__setstate__`: reset `_root`/`_count` and `update` from
the exported mapping, inserting each pair in its iteration order. -/
def importState (items : List (Nat × PyVal)) : TreeState :=
  items.foldl (fun s kv => insertOp s kv.1 kv.2) TreeState.empty

/-- One caller-visible mutation of the tree engine. -/
inductive Op where
  | ins (k : Nat) (v : PyVal)
  | del (k : Nat)
  | clear

/-- Apply one operation to the tree state; a `remove` that raises
`KeyError` leaves the state as it was. -/
def applyOp (s : TreeState) : Op → TreeState
  | .ins k v => insertOp s k v
  | .del k =>
    match removeOp s k with
    | .ok s2 => s2
    | .error _ => s
  | .clear => clearOp s

/-- Run a sequence of operations from a freshly constructed tree. -/
def run (ops : List Op) : TreeState :=
  ops.foldl applyOp TreeState.empty

/-- All keys of the tree satisfy `p` (spec §3: subtree key conditions). -/
def allB (p : Nat → Bool) : Tree → Bool
  | .leaf => true
  | .node l k _ r => p k && allB p l && allB p r

/-- The BST invariant of spec §3: at every node, all left-subtree keys
are strictly smaller and all right-subtree keys strictly greater. -/
def bstB : Tree → Bool
  | .leaf => true
  | .node l k _ r =>
    allB (fun x => x < k) l && allB (fun x => k < x) r && bstB l && bstB r

/-- The range predicate exactly as the specification words it: an item
is emitted iff `start ≤ key < end`, an absent bound imposing no
constraint.  Stated from the spec, to be compared against the filter
the code builds in `_get_in_range_func`. -/
def specInRange (start_key end_key : Option Nat) (x : Nat) : Bool :=
  (match start_key with
   | none => true
   | some a => a ≤ x) &&
  (match end_key with
   | none => true
   | some e => x < e)

/-- Combine an offered successor candidate with the current one,
keeping the smaller key; the first argument is the newly offered
candidate, matching the source's `if node.key < succ_node.key` update. -/
def optMin (new old : Option (Nat × PyVal)) : Option (Nat × PyVal) :=
  match new, old with
  | none, o => o
  | some n, none => some n
  | some n, some o => some (if n.1 < o.1 then n else o)

/-- The item with the smallest key strictly greater than `key` in a
search tree, tracked structurally along the search path. -/
def minGT (key : Nat) : Tree → Option (Nat × PyVal)
  | .leaf => none
  | .node l k v r =>
    if key < k then optMin (minGT key l) (some (k, v)) else minGT key r

/-- The item sequence in first-direction order: in-order ascending, or
its reverse when the attrgetters are swapped. -/
def trav (rev : Bool) (t : Tree) : List (Nat × PyVal) :=
  if rev then t.inorder.reverse else t.inorder

/-- The items still pending from a stack entry of `_iter_items` when it
is popped: its own item (if in range) followed by the filtered walk of
its second-direction subtree. -/
def pend (rev : Bool) (p : Nat → Bool) : Tree → List (Nat × PyVal)
  | .leaf => []
  | .node l k v r =>
    (if p k then [(k, v)] else []) ++
      (trav rev (if rev then l else r)).filter (fun kv => p kv.1)

/-- A one-item tree holding `1 ↦ 10`, used as a concrete input. -/
def demoT1 : Tree := .node .leaf 1 (some 10) .leaf

/-- A one-item tree holding `1 ↦ 5`, used as a concrete `union` operand. -/
def demoU : Tree := .node .leaf 1 (some 5) .leaf

/-- A one-item tree holding `5 ↦ 5`, used against `succ_item`. -/
def demo5 : Tree := .node .leaf 5 (some 5) .leaf

/-- The slicing example of the specification: keys
`1, 2, 3, 4, 8, 9, 10, 11`, each mapped to itself. -/
def sliceDemo : TreeState :=
  importState
    [(1, some 1), (2, some 2), (3, some 3), (4, some 4),
     (8, some 8), (9, some 9), (10, some 10), (11, some 11)]

/-- A three-item search tree state, used as a concrete witness input. -/
def demoS3 : TreeState :=
  importState [(1, some 10), (2, some 20), (3, some 30)]

theorem inorder_leaf : Tree.inorder .leaf = [] := rfl

theorem inorder_node (l : Tree) (k : Nat) (v : PyVal) (r : Tree) :
    (Tree.node l k v r).inorder = l.inorder ++ (k, v) :: r.inorder := rfl

theorem keysList_leaf : Tree.keysList .leaf = [] := rfl

theorem keysList_node (l : Tree) (k : Nat) (v : PyVal) (r : Tree) :
    (Tree.node l k v r).keysList = l.keysList ++ k :: r.keysList := by
  simp [Tree.keysList, inorder_node]

theorem size_eq_length_inorder (t : Tree) : t.size = t.inorder.length := by
  induction t with
  | leaf => rfl
  | node l k v r ihl ihr =>
    simp [Tree.size, inorder_node, ihl, ihr]
    omega


theorem mem_keysList {x : Nat} {t : Tree} :
    x ∈ t.keysList ↔ ∃ v, (x, v) ∈ t.inorder := by
  simp [Tree.keysList, List.mem_map]

theorem allB_iff (p : Nat → Bool) (t : Tree) :
    allB p t = true ↔ ∀ x ∈ t.keysList, p x = true := by
  induction t with
  | leaf => simp [allB, keysList_leaf]
  | node l k v r ihl ihr =>
    simp only [allB, keysList_node, Bool.and_eq_true, ihl, ihr,
      List.mem_append, List.mem_cons]
    constructor
    · rintro ⟨⟨hk, hl⟩, hr⟩ x hx
      rcases hx with hx | hx | hx
      · exact hl x hx
      · subst hx; exact hk
      · exact hr x hx
    · intro h
      exact ⟨⟨h k (Or.inr (Or.inl rfl)), fun x hx => h x (Or.inl hx)⟩,
        fun x hx => h x (Or.inr (Or.inr hx))⟩

theorem bstB_node {l : Tree} {k : Nat} {v : PyVal} {r : Tree} :
    bstB (.node l k v r) = true ↔
      allB (fun x => x < k) l = true ∧ allB (fun x => k < x) r = true ∧
        bstB l = true ∧ bstB r = true := by
  simp [bstB, Bool.and_eq_true, and_assoc]

theorem allB_mono {p q : Nat → Bool} {t : Tree}
    (h : allB p t = true) (himp : ∀ x, p x = true → q x = true) :
    allB q t = true := by
  rw [allB_iff] at h ⊢
  exact fun x hx => himp x (h x hx)

theorem sorted_keysList {t : Tree} (h : bstB t = true) :
    List.Sorted (· < ·) t.keysList := by
  induction t with
  | leaf => simp [keysList_leaf]
  | node l k v r ihl ihr =>
    rw [bstB_node] at h
    obtain ⟨hl, hr, hbl, hbr⟩ := h
    rw [keysList_node]
    refine List.pairwise_append.2 ⟨ihl hbl, ?_, ?_⟩
    · refine List.pairwise_cons.2 ⟨?_, ihr hbr⟩
      intro b hb
      have := (allB_iff _ _).1 hr b hb
      simpa using this
    · intro a ha b hb
      have hak : a < k := by
        have := (allB_iff _ _).1 hl a ha
        simpa using this
      rcases List.mem_cons.1 hb with rfl | hb
      · exact hak
      · have hkb : k < b := by
          have := (allB_iff _ _).1 hr b hb
          simpa using this
        exact hak.trans hkb

theorem isLeaf_iff {t : Tree} : t.isLeaf = true ↔ t = .leaf := by
  cases t <;> simp [Tree.isLeaf]

theorem insert_keys_subset (t : Tree) (k : Nat) (v : PyVal) :
    ∀ x ∈ (insert t k v).1.keysList, x = k ∨ x ∈ t.keysList := by
  induction t with
  | leaf => simp [insert, keysList_node, keysList_leaf]
  | node l key val r ihl ihr =>
    intro x hx
    rcases eq_or_ne k key with h1 | h1
    · subst h1
      simp [insert, keysList_node] at hx
      simp [keysList_node]
      tauto
    · by_cases h2 : k ≤ key
      · simp [insert, h1, h2, keysList_node] at hx
        simp [keysList_node]
        rcases hx with hx | hx | hx
        · rcases ihl x hx with h | h
          · exact Or.inl h
          · tauto
        · tauto
        · tauto
      · simp [insert, h1, h2, keysList_node] at hx
        simp [keysList_node]
        rcases hx with hx | hx | hx
        · tauto
        · tauto
        · rcases ihr x hx with h | h
          · exact Or.inl h
          · tauto

theorem allB_insert {p : Nat → Bool} {t : Tree} (h : allB p t = true)
    {k : Nat} (v : PyVal) (hk : p k = true) :
    allB p (insert t k v).1 = true := by
  rw [allB_iff] at h ⊢
  intro x hx
  rcases insert_keys_subset t k v x hx with rfl | hx
  · exact hk
  · exact h x hx

theorem bstB_insert {t : Tree} (h : bstB t = true) (k : Nat) (v : PyVal) :
    bstB (insert t k v).1 = true := by
  induction t with
  | leaf => simp [insert, bstB, allB]
  | node l key val r ihl ihr =>
    rw [bstB_node] at h
    obtain ⟨hal, har, hbl, hbr⟩ := h
    rcases eq_or_ne k key with h1 | h1
    · subst h1
      simp only [insert, if_pos rfl]
      exact bstB_node.2 ⟨hal, har, hbl, hbr⟩
    · by_cases h2 : k ≤ key
      · have hklt : k < key := lt_of_le_of_ne h2 h1
        simp only [insert, if_neg h1, if_pos h2]
        exact bstB_node.2 ⟨allB_insert hal v (by simpa using hklt), har, ihl hbl, hbr⟩
      · have hkgt : key < k := by omega
        simp only [insert, if_neg h1, if_neg h2]
        exact bstB_node.2 ⟨hal, allB_insert har v (by simpa using hkgt), hbl, ihr hbr⟩

theorem size_insert (t : Tree) (k : Nat) (v : PyVal) :
    (insert t k v).1.size = t.size + (insert t k v).2 := by
  induction t with
  | leaf => simp [insert, Tree.size]
  | node l key val r ihl ihr =>
    rcases eq_or_ne k key with h1 | h1
    · subst h1
      simp [insert, Tree.size]
    · by_cases h2 : k ≤ key
      · simp only [insert, if_neg h1, if_pos h2, Tree.size]
        omega
      · simp only [insert, if_neg h1, if_neg h2, Tree.size]
        omega

theorem detachMin_inorder : ∀ t : Tree, t ≠ .leaf →
    t.inorder = (detachMin t).1 :: (detachMin t).2.inorder := by
  intro t
  induction t with
  | leaf => intro h; exact absurd rfl h
  | node l k v r ihl ihr =>
    intro _
    cases l with
    | leaf => simp [detachMin, inorder_node, inorder_leaf]
    | node ll lk lv lr =>
      have hl := ihl (by simp)
      rw [show detachMin (Tree.node (Tree.node ll lk lv lr) k v r)
            = ((detachMin (Tree.node ll lk lv lr)).1,
               Tree.node (detachMin (Tree.node ll lk lv lr)).2 k v r) from rfl]
      rw [inorder_node, hl, inorder_node]
      simp

theorem detachMin_keysList (t : Tree) (h : t ≠ .leaf) :
    t.keysList = (detachMin t).1.1 :: (detachMin t).2.keysList := by
  have h1 := detachMin_inorder t h
  simp [Tree.keysList]
  rw [h1]
  simp

theorem detachMin_size (t : Tree) (h : t ≠ .leaf) :
    t.size = (detachMin t).2.size + 1 := by
  have h1 := detachMin_inorder t h
  have h2 := size_eq_length_inorder t
  have h3 := size_eq_length_inorder (detachMin t).2
  rw [h1] at h2
  simp at h2
  omega

theorem allB_detachMin {p : Nat → Bool} {t : Tree} (hne : t ≠ .leaf)
    (h : allB p t = true) :
    p (detachMin t).1.1 = true ∧ allB p (detachMin t).2 = true := by
  rw [allB_iff] at h
  have hk := detachMin_keysList t hne
  refine ⟨h _ (by rw [hk]; exact List.mem_cons_self _ _), ?_⟩
  rw [allB_iff]
  intro x hx
  exact h x (by rw [hk]; exact List.mem_cons_of_mem _ hx)

theorem bstB_detachMin : ∀ {t : Tree}, t ≠ .leaf → bstB t = true →
    bstB (detachMin t).2 = true := by
  intro t
  induction t with
  | leaf => intro h; exact absurd rfl h
  | node l k v r ihl ihr =>
    intro _ hb
    rw [bstB_node] at hb
    obtain ⟨hal, har, hbl, hbr⟩ := hb
    cases l with
    | leaf => simpa [detachMin] using hbr
    | node ll lk lv lr =>
      simp only [detachMin]
      refine bstB_node.2 ⟨?_, har, ihl (by simp) hbl, hbr⟩
      exact (allB_detachMin (by simp) hal).2

theorem detachMin_lt {t : Tree} (hne : t ≠ .leaf) (hb : bstB t = true) :
    allB (fun x => (detachMin t).1.1 < x) (detachMin t).2 = true := by
  have hs := sorted_keysList hb
  rw [detachMin_keysList t hne] at hs
  rw [allB_iff]
  intro x hx
  have := (List.pairwise_cons.1 hs).1 x hx
  simpa using this

theorem remove_size {t : Tree} : ∀ {k : Nat} {t2 : Tree},
    remove t k = .ok t2 → t2.size + 1 = t.size := by
  induction t with
  | leaf => intro k t2 h; simp [remove] at h
  | node l key v r ihl ihr =>
    intro k t2 h
    rcases eq_or_ne k key with h1 | h1
    · subst h1
      simp only [remove, if_pos rfl] at h
      by_cases hc : (!l.isLeaf && !r.isLeaf) = true
      · rw [if_pos hc] at h
        have hr : r ≠ .leaf := by
          have h3 := hc
          rw [Bool.and_eq_true] at h3
          intro hrl
          rw [hrl] at h3
          simp [Tree.isLeaf] at h3
        cases h
        have := detachMin_size r hr
        simp [Tree.size]
        omega
      · rw [if_neg hc] at h
        by_cases hl : l.isLeaf = true
        · rw [if_pos hl] at h
          cases h
          have := isLeaf_iff.1 hl
          subst this
          simp [Tree.size]
          omega
        · rw [if_neg hl] at h
          cases h
          have hrleaf : r.isLeaf = true := by
            rcases hx : r.isLeaf with _ | _
            · exfalso
              apply hc
              simp [hl, hx]
            · rfl
          have := isLeaf_iff.1 hrleaf
          subst this
          simp [Tree.size]
          omega
    · by_cases h2 : k < key
      · simp only [remove, if_neg h1, if_pos h2] at h
        cases hrl : remove l k with
        | ok l2 =>
          rw [hrl] at h
          cases h
          have := ihl hrl
          simp [Tree.size]
          omega
        | error e =>
          rw [hrl] at h
          cases h
      · simp only [remove, if_neg h1, if_neg h2] at h
        cases hrr : remove r k with
        | ok r2 =>
          rw [hrr] at h
          cases h
          have := ihr hrr
          simp [Tree.size]
          omega
        | error e =>
          rw [hrr] at h
          cases h

theorem remove_notin {t : Tree} : ∀ {k : Nat}, k ∉ t.keysList →
    remove t k = .error .KeyNotFound := by
  induction t with
  | leaf => intro k _; rfl
  | node l key v r ihl ihr =>
    intro k h
    rw [keysList_node] at h
    simp only [List.mem_append, List.mem_cons, not_or] at h
    obtain ⟨hnl, hnk, hnr⟩ := h
    by_cases h2 : k < key
    · simp [remove, hnk, h2, ihl hnl]
    · simp [remove, hnk, h2, ihr hnr]

theorem remove_keys_subset {t : Tree} : ∀ {k : Nat} {t2 : Tree},
    remove t k = .ok t2 → ∀ x ∈ t2.keysList, x ∈ t.keysList := by
  induction t with
  | leaf => intro k t2 h; simp [remove] at h
  | node l key v r ihl ihr =>
    intro k t2 h x hx
    rcases eq_or_ne k key with h1 | h1
    · subst h1
      simp only [remove, if_pos rfl] at h
      by_cases hc : (!l.isLeaf && !r.isLeaf) = true
      · rw [if_pos hc] at h
        have hr : r ≠ .leaf := by
          have h3 := hc
          rw [Bool.and_eq_true] at h3
          intro hrl
          rw [hrl] at h3
          simp [Tree.isLeaf] at h3
        cases h
        rw [keysList_node] at hx
        simp only [List.mem_append, List.mem_cons] at hx
        rw [keysList_node]
        simp only [List.mem_append, List.mem_cons]
        have hdk := detachMin_keysList r hr
        rcases hx with hx | hx | hx
        · exact Or.inl hx
        · refine Or.inr (Or.inr ?_)
          rw [hdk]
          exact List.mem_cons.2 (Or.inl hx)
        · refine Or.inr (Or.inr ?_)
          rw [hdk]
          exact List.mem_cons.2 (Or.inr hx)
      · rw [if_neg hc] at h
        by_cases hl : l.isLeaf = true
        · rw [if_pos hl] at h
          cases h
          rw [keysList_node]
          simp only [List.mem_append, List.mem_cons]
          exact Or.inr (Or.inr hx)
        · rw [if_neg hl] at h
          cases h
          rw [keysList_node]
          simp only [List.mem_append, List.mem_cons]
          exact Or.inl hx
    · by_cases h2 : k < key
      · simp only [remove, if_neg h1, if_pos h2] at h
        cases hrl : remove l k with
        | ok l2 =>
          rw [hrl] at h
          cases h
          rw [keysList_node] at hx
          simp only [List.mem_append, List.mem_cons] at hx
          rw [keysList_node]
          simp only [List.mem_append, List.mem_cons]
          rcases hx with hx | hx
          · exact Or.inl (ihl hrl x hx)
          · exact Or.inr hx
        | error e =>
          rw [hrl] at h
          cases h
      · simp only [remove, if_neg h1, if_neg h2] at h
        cases hrr : remove r k with
        | ok r2 =>
          rw [hrr] at h
          cases h
          rw [keysList_node] at hx
          simp only [List.mem_append, List.mem_cons] at hx
          rw [keysList_node]
          simp only [List.mem_append, List.mem_cons]
          rcases hx with hx | hx | hx
          · exact Or.inl hx
          · exact Or.inr (Or.inl hx)
          · exact Or.inr (Or.inr (ihr hrr x hx))
        | error e =>
          rw [hrr] at h
          cases h

theorem bstB_remove {t : Tree} : ∀ {k : Nat} {t2 : Tree},
    bstB t = true → remove t k = .ok t2 → bstB t2 = true := by
  induction t with
  | leaf => intro k t2 _ h; simp [remove] at h
  | node l key v r ihl ihr =>
    intro k t2 hb h
    rw [bstB_node] at hb
    obtain ⟨hal, har, hbl, hbr⟩ := hb
    rcases eq_or_ne k key with h1 | h1
    · subst h1
      simp only [remove, if_pos rfl] at h
      by_cases hc : (!l.isLeaf && !r.isLeaf) = true
      · rw [if_pos hc] at h
        have hr : r ≠ .leaf := by
          have h3 := hc
          rw [Bool.and_eq_true] at h3
          intro hrl
          rw [hrl] at h3
          simp [Tree.isLeaf] at h3
        cases h
        have hmk : k < (detachMin r).1.1 := by
          have := (allB_detachMin hr har).1
          simpa using this
        refine bstB_node.2 ⟨?_, detachMin_lt hr hbr, hbl, bstB_detachMin hr hbr⟩
        refine allB_mono hal ?_
        intro x hx
        simp at hx ⊢
        omega
      · rw [if_neg hc] at h
        by_cases hl : l.isLeaf = true
        · rw [if_pos hl] at h
          cases h
          exact hbr
        · rw [if_neg hl] at h
          cases h
          exact hbl
    · by_cases h2 : k < key
      · simp only [remove, if_neg h1, if_pos h2] at h
        cases hrl : remove l k with
        | ok l2 =>
          rw [hrl] at h
          cases h
          refine bstB_node.2 ⟨?_, har, ihl hbl hrl, hbr⟩
          rw [allB_iff] at hal ⊢
          exact fun x hx => hal x (remove_keys_subset hrl x hx)
        | error e =>
          rw [hrl] at h
          cases h
      · simp only [remove, if_neg h1, if_neg h2] at h
        cases hrr : remove r k with
        | ok r2 =>
          rw [hrr] at h
          cases h
          refine bstB_node.2 ⟨hal, ?_, hbl, ihr hbr hrr⟩
          rw [allB_iff] at har ⊢
          exact fun x hx => har x (remove_keys_subset hrr x hx)
        | error e =>
          rw [hrr] at h
          cases h

theorem inv_applyOp {s : TreeState} (h1 : bstB s.root = true)
    (h2 : s.count = s.root.size) (op : Op) :
    bstB (applyOp s op).root = true ∧ (applyOp s op).count = (applyOp s op).root.size := by
  cases op with
  | ins k v =>
    refine ⟨?_, ?_⟩
    · simpa [applyOp, insertOp] using bstB_insert h1 k v
    · simp [applyOp, insertOp, size_insert, h2]
  | del k =>
    cases hr : remove s.root k with
    | ok t =>
      have hs := remove_size hr
      refine ⟨?_, ?_⟩
      · simpa [applyOp, removeOp, hr] using bstB_remove h1 hr
      · simp [applyOp, removeOp, hr]
        omega
    | error e =>
      simp [applyOp, removeOp, hr]
      exact ⟨h1, h2⟩
  | clear => simp [applyOp, clearOp, bstB, Tree.size]

theorem inv_run (ops : List Op) :
    bstB (run ops).root = true ∧ (run ops).count = (run ops).root.size := by
  rw [run]
  have hgen : ∀ (l : List Op) (s : TreeState), bstB s.root = true →
      s.count = s.root.size →
      bstB (l.foldl applyOp s).root = true ∧
        (l.foldl applyOp s).count = (l.foldl applyOp s).root.size := by
    intro l
    induction l with
    | nil => intro s hs1 hs2; exact ⟨hs1, hs2⟩
    | cons op rest ih =>
      intro s hs1 hs2
      have hstep := inv_applyOp hs1 hs2 op
      exact ih (applyOp s op) hstep.1 hstep.2
  exact hgen ops TreeState.empty (by rfl) (by rfl)

theorem trav_leaf (rev : Bool) : trav rev .leaf = [] := by
  simp [trav, inorder_leaf]

theorem trav_node (rev : Bool) (l : Tree) (k : Nat) (v : PyVal) (r : Tree) :
    trav rev (.node l k v r)
      = trav rev (if rev then r else l) ++ (k, v) :: trav rev (if rev then l else r) := by
  cases rev <;> simp [trav, inorder_node]

theorem pend_node (rev : Bool) (p : Nat → Bool) (l : Tree) (k : Nat) (v : PyVal) (r : Tree) :
    pend rev p (.node l k v r)
      = ((k, v) :: trav rev (if rev then l else r)).filter (fun kv => p kv.1) := by
  by_cases hp : p k = true <;> simp [pend, List.filter_cons, hp]

theorem iterLoop_eq (rev : Bool) (p : Nat → Bool) (t : Tree) (stack : List Tree)
    (goLeft : Bool) :
    (t = .leaf → stack = []) → (∀ s ∈ stack, s ≠ .leaf) →
    iterLoop rev p t stack goLeft =
      (if goLeft then (trav rev t).filter (fun kv => p kv.1) else pend rev p t)
        ++ (stack.map (pend rev p)).join := by
  induction t, stack, goLeft using iterLoop.induct rev p with
  | case1 stack goLeft =>
    intro h1 _
    rw [h1 rfl]
    cases goLeft <;> simp [iterLoop, trav_leaf, pend]
  | case2 l k v r stack goLeft hcond ih =>
    intro _ h2
    have hg : goLeft = true := by
      rcases goLeft with _ | _
      · simp at hcond
      · rfl
    subst hg
    simp only [dite_eq_ite] at hcond ih
    have hfst : (if rev then r else l) ≠ .leaf := by
      intro hx
      rw [hx] at hcond
      simp [Tree.isLeaf] at hcond
    have ih2 := ih (fun hx => absurd hx hfst)
      (by
        intro s hs
        rcases List.mem_cons.1 hs with rfl | hs
        · simp
        · exact h2 s hs)
    rw [iterLoop.eq_def]
    simp only [hcond, if_true]
    rw [ih2]
    simp only [if_pos rfl, List.map_cons, List.join, pend_node, trav_node rev l k v r,
      List.filter_append]
    simp [List.append_assoc]
  | case3 l k v r stack goLeft hcond ihB ihC =>
    intro _ h2
    simp only [dite_eq_ite] at hcond ihB ihC
    have hfstleaf : goLeft = true → (if rev then r else l) = .leaf := by
      intro hg
      subst hg
      rcases hx : (if rev then r else l) with _ | _
      · rfl
      · rw [hx] at hcond
        simp [Tree.isLeaf] at hcond
    by_cases hsnd : (if rev then l else r).isLeaf = true
    · have hsl := isLeaf_iff.1 hsnd
      cases stack with
      | nil =>
        rw [iterLoop.eq_def]
        simp only [hcond, if_false, hsnd, Bool.not_true, Bool.false_eq_true]
        simp only [List.map_nil, List.join_nil, List.append_nil]
        rcases goLeft with _ | _
        · simp [pend, hsl, trav_leaf]
        · rw [if_pos rfl, trav_node rev l k v r, hfstleaf rfl]
          simp [trav_leaf, hsl, List.filter_cons]
      | cons s rest =>
        have hsne : s ≠ .leaf := h2 s (List.mem_cons_self _ _)
        have ih2 := ihC (by simp [hsnd]) (fun hx => absurd hx hsne)
          (fun x hx => h2 x (List.mem_cons_of_mem _ hx))
        rw [iterLoop.eq_def]
        simp only [hcond, if_false, hsnd, Bool.not_true, Bool.false_eq_true]
        rw [ih2]
        simp only [List.map_cons, List.join]
        rcases goLeft with _ | _
        · simp [pend, hsl, trav_leaf, List.append_assoc]
        · rw [if_pos rfl, trav_node rev l k v r, hfstleaf rfl]
          simp [trav_leaf, hsl, List.filter_cons, List.append_assoc]
    · have ih2 := ihB (by simp [hsnd]) (fun hx => absurd (by rw [hx]; rfl) hsnd)
        h2
      have hsnd2 : (if rev then l else r).isLeaf = false := by
        rcases hx : (if rev then l else r).isLeaf with _ | _
        · rfl
        · exact absurd hx hsnd
      rw [iterLoop.eq_def]
      simp only [hcond, if_false, hsnd2, Bool.not_false, if_true, Bool.false_eq_true]
      rw [ih2]
      rcases goLeft with _ | _
      · simp [pend, List.append_assoc]
      · rw [if_pos rfl, trav_node rev l k v r, hfstleaf rfl]
        simp only [trav_leaf, List.filter_cons, pend, List.append_assoc,
          List.nil_append, List.filter_nil, if_pos rfl]
        by_cases hp : p k = true <;> simp [hp, List.append_assoc]

theorem iter_items_eq (s : TreeState) (hc : s.count = s.root.size)
    (start_key end_key : Option Nat) (rev : Bool) :
    iter_items s start_key end_key rev =
      (if rev then
        ((s.root.inorder).filter (fun kv => in_range_fun s start_key end_key kv.1)).reverse
       else
        (s.root.inorder).filter (fun kv => in_range_fun s start_key end_key kv.1)) := by
  by_cases he : is_empty s = true
  · have hz : s.root.size = 0 := by
      rw [← hc]
      simpa [is_empty] using he
    have hleaf : s.root = .leaf := by
      cases hroot : s.root with
      | leaf => rfl
      | node l k v r =>
        rw [hroot] at hz
        simp [Tree.size] at hz
    simp [iter_items, he, hleaf, inorder_leaf]
  · rw [iter_items, if_neg he]
    rw [iterLoop_eq rev (in_range_fun s start_key end_key) s.root [] true
      (fun _ => rfl) (by simp)]
    simp only [if_pos rfl, List.map_nil, List.join_nil, List.append_nil, trav]
    cases rev with
    | false => simp
    | true => simp [List.filter_reverse]

theorem inorder_ne_nil {t : Tree} (h : t ≠ .leaf) : t.inorder ≠ [] := by
  cases t with
  | leaf => exact absurd rfl h
  | node l k v r => simp [inorder_node]

theorem minNode_eq_head : ∀ {t : Tree}, t ≠ .leaf →
    t.inorder.head? = some (minNode t) := by
  intro t
  induction t with
  | leaf => intro h; exact absurd rfl h
  | node l k v r ihl ihr =>
    intro _
    cases l with
    | leaf => simp [inorder_node, inorder_leaf, minNode]
    | node ll lk lv lr =>
      have h1 := ihl (by simp)
      have h2 := inorder_ne_nil (t := Tree.node ll lk lv lr) (by simp)
      rw [inorder_node, minNode]
      rw [List.head?_append_of_ne_nil _ h2]
      exact h1

theorem minNode_le {t : Tree} (hb : bstB t = true) (hne : t ≠ .leaf) :
    ∀ x ∈ t.keysList, (minNode t).1 ≤ x := by
  have hs := sorted_keysList hb
  have hh := minNode_eq_head hne
  have hk : t.keysList.head? = some (minNode t).1 := by
    rw [Tree.keysList, List.head?_map, hh]
    rfl
  cases hkl : t.keysList with
  | nil =>
    intro x hx
    simp at hx
  | cons a tl =>
    rw [hkl] at hk hs
    simp at hk
    subst hk
    intro x hx
    rcases List.mem_cons.1 hx with rfl | hx
    · exact le_refl _
    · exact le_of_lt ((List.pairwise_cons.1 hs).1 x hx)

theorem in_range_eq_spec {s : TreeState} (hb : bstB s.root = true)
    (start_key end_key : Option Nat) :
    ∀ x ∈ s.root.keysList,
      in_range_fun s start_key end_key x = specInRange start_key end_key x := by
  intro x hx
  have hne : s.root ≠ .leaf := by
    intro h
    rw [h] at hx
    simp [keysList_leaf] at hx
  cases start_key with
  | some a => cases end_key <;> simp [in_range_fun, specInRange]
  | none =>
    cases end_key with
    | none => simp [in_range_fun, specInRange]
    | some e =>
      have hm := minNode_le hb hne x hx
      simp [in_range_fun, specInRange, hm]

theorem insert_max_append {t : Tree} {k : Nat} (v : PyVal)
    (h : allB (fun x => x < k) t = true) :
    (insert t k v).1.inorder = t.inorder ++ [(k, v)] := by
  induction t with
  | leaf => simp [insert, inorder_node, inorder_leaf]
  | node l key val r ihl ihr =>
    simp only [allB, Bool.and_eq_true] at h
    obtain ⟨⟨hk, hl⟩, hr⟩ := h
    have hkk : key < k := by simpa using hk
    have hne : ¬(k = key) := by omega
    have hnle : ¬(k ≤ key) := by omega
    simp only [insert, if_neg hne, if_neg hnle]
    rw [inorder_node, inorder_node, ihr hr]
    simp [List.append_assoc]

theorem import_foldl : ∀ (L : List (Nat × PyVal)) (s : TreeState),
    List.Sorted (· < ·) (s.root.keysList ++ L.map Prod.fst) →
    (L.foldl (fun acc kv => insertOp acc kv.1 kv.2) s).root.inorder
      = s.root.inorder ++ L := by
  intro L
  induction L with
  | nil => intro s _; simp
  | cons kv rest ih =>
    intro s h
    have hall : allB (fun x => x < kv.1) s.root = true := by
      rw [allB_iff]
      intro x hx
      have := (List.pairwise_append.1 h).2.2 x hx kv.1 (by simp)
      simpa using this
    have hins := insert_max_append kv.2 hall
    have hroot : (insertOp s kv.1 kv.2).root = (insert s.root kv.1 kv.2).1 := rfl
    have hkeys : (insertOp s kv.1 kv.2).root.keysList = s.root.keysList ++ [kv.1] := by
      rw [hroot, Tree.keysList, hins]
      simp [Tree.keysList]
    simp only [List.foldl_cons]
    rw [ih (insertOp s kv.1 kv.2) (by rw [hkeys, List.append_assoc]; simpa using h)]
    rw [hroot, hins]
    simp

theorem export_eq_inorder (s : TreeState) (hc : s.count = s.root.size) :
    exportItems s = s.root.inorder := by
  rw [exportItems, iter_items_eq s hc none none false]
  simp [in_range_fun]

theorem import_export (s : TreeState) (hb : bstB s.root = true)
    (hc : s.count = s.root.size) :
    (importState (exportItems s)).root.inorder = s.root.inorder := by
  rw [export_eq_inorder s hc, importState]
  have h := import_foldl s.root.inorder TreeState.empty
    (by simpa [TreeState.empty, keysList_leaf] using sorted_keysList hb)
  simpa using h

theorem optMin_none_right (a : Option (Nat × PyVal)) : optMin a none = a := by
  cases a <;> rfl

theorem optMin_assoc {a b c : Option (Nat × PyVal)}
    (hab : ∀ x y, a = some x → b = some y → x.1 ≠ y.1)
    (hac : ∀ x y, a = some x → c = some y → x.1 ≠ y.1)
    (hbc : ∀ x y, b = some x → c = some y → x.1 ≠ y.1) :
    optMin (optMin a b) c = optMin a (optMin b c) := by
  rcases a with _ | pa <;> rcases b with _ | pb <;> rcases c with _ | pc <;>
    simp only [optMin] <;> split_ifs <;> try rfl
  all_goals
    have h1 : pa.1 ≠ pb.1 := hab _ _ rfl rfl
  all_goals
    have h2 : pa.1 ≠ pc.1 := hac _ _ rfl rfl
  all_goals
    have h3 : pb.1 ≠ pc.1 := hbc _ _ rfl rfl
  all_goals
    exfalso
    omega

theorem minNode_mem {t : Tree} (h : t ≠ .leaf) : minNode t ∈ t.inorder := by
  have hh := minNode_eq_head h
  exact List.mem_of_mem_head? (by rw [hh]; rfl)

theorem minGT_mem {key : Nat} : ∀ {t : Tree} {x : Nat × PyVal},
    minGT key t = some x → x ∈ t.inorder := by
  intro t
  induction t with
  | leaf => intro x h; simp [minGT] at h
  | node l k v r ihl ihr =>
    intro x h
    by_cases hk : key < k
    · simp only [minGT, if_pos hk] at h
      cases hml : minGT key l with
      | none =>
        rw [hml] at h
        simp [optMin] at h
        subst h
        simp [inorder_node]
      | some m =>
        rw [hml] at h
        simp only [optMin, Option.some.injEq] at h
        rw [inorder_node]
        by_cases hmk : m.1 < k
        · rw [if_pos hmk] at h
          subst h
          exact List.mem_append.2 (Or.inl (ihl hml))
        · rw [if_neg hmk] at h
          subst h
          simp
    · simp only [minGT, if_neg hk] at h
      rw [inorder_node]
      exact List.mem_append.2 (Or.inr (List.mem_cons_of_mem _ (ihr h)))

theorem minGT_all_gt {key : Nat} : ∀ {t : Tree}, bstB t = true →
    allB (fun x => key < x) t = true → t ≠ .leaf →
    minGT key t = some (minNode t) := by
  intro t
  induction t with
  | leaf => intro _ _ h; exact absurd rfl h
  | node l k v r ihl ihr =>
    intro hb ha _
    rw [bstB_node] at hb
    obtain ⟨hal, _, hbl, _⟩ := hb
    simp only [allB, Bool.and_eq_true] at ha
    obtain ⟨⟨hk, hl⟩, _⟩ := ha
    have hkk : key < k := by simpa using hk
    cases l with
    | leaf => simp [minGT, hkk, optMin, minNode]
    | node ll lk lv lr =>
      have hml := ihl hbl hl (by simp)
      have hmem := minNode_mem (t := Tree.node ll lk lv lr) (by simp)
      have hlt : (minNode (Tree.node ll lk lv lr)).1 < k := by
        have := (allB_iff _ _).1 hal (minNode (Tree.node ll lk lv lr)).1
          (mem_keysList.2 ⟨_, hmem⟩)
        simpa using this
      have hstep : minGT key (Tree.node (Tree.node ll lk lv lr) k v r)
          = optMin (minGT key (Tree.node ll lk lv lr)) (some (k, v)) := by
        rw [minGT, if_pos hkk]
      rw [hstep, hml]
      simp only [optMin]
      rw [if_pos hlt]
      rfl

theorem minGT_eq_filter_head {key : Nat} : ∀ {t : Tree}, bstB t = true →
    minGT key t = ((t.inorder).filter (fun kv => decide (key < kv.1))).head? := by
  intro t
  induction t with
  | leaf => intro _; simp [minGT, inorder_leaf]
  | node l k v r ihl ihr =>
    intro hb
    rw [bstB_node] at hb
    obtain ⟨hal, har, hbl, hbr⟩ := hb
    by_cases hlt : key < k
    · have hdk : decide (key < k) = true := by simpa using hlt
      simp only [minGT, if_pos hlt, inorder_node, List.filter_append, List.filter_cons,
        hdk, if_pos rfl]
      cases hfl : (l.inorder).filter (fun kv => decide (key < kv.1)) with
      | nil =>
        rw [ihl hbl, hfl]
        simp [optMin]
      | cons m tl =>
        rw [ihl hbl, hfl]
        have hmem : m ∈ l.inorder := List.mem_of_mem_filter (by rw [hfl]; simp)
        have hmk : m.1 < k := by
          have := (allB_iff _ _).1 hal m.1 (mem_keysList.2 ⟨_, hmem⟩)
          simpa using this
        simp [optMin, hmk]
    · have hnl : (l.inorder).filter (fun kv => decide (key < kv.1)) = [] := by
        rw [List.filter_eq_nil]
        intro kv hkv
        have : kv.1 < k := by
          have := (allB_iff _ _).1 hal kv.1 (mem_keysList.2 ⟨_, hkv⟩)
          simpa using this
        simp
        omega
      have hdk : decide (key < k) = false := by simpa using hlt
      simp only [minGT, if_neg hlt, inorder_node, List.filter_append, List.filter_cons,
        hdk, hnl]
      simp [ihr hbr]

theorem succLoop_eq {key : Nat} : ∀ {t : Tree} (acc : Option (Nat × PyVal)),
    bstB t = true →
    (∀ a, acc = some a → key < a.1 ∧ a.1 ∉ t.keysList) →
    succLoop key t acc =
      (if key ∈ t.keysList then
        match optMin (minGT key t) acc with
        | some kv => Except.ok kv
        | none => Except.error Error.KeyNotFound
      else Except.error Error.KeyNotFound) := by
  intro t
  induction t with
  | leaf =>
    intro acc _ _
    simp [succLoop, keysList_leaf]
  | node l k v r ihl ihr =>
    intro acc hb hacc
    rw [bstB_node] at hb
    obtain ⟨hal, har, hbl, hbr⟩ := hb
    rcases eq_or_ne key k with rfl | hne
    · have hmem : key ∈ (Tree.node l key v r).keysList := by
        rw [keysList_node]
        simp
      rw [if_pos hmem]
      have hgt : minGT key (Tree.node l key v r) = minGT key r := by
        rw [minGT, if_neg (lt_irrefl key)]
      rw [hgt]
      cases r with
      | leaf =>
        simp only [succLoop, if_pos rfl]
        rw [minGT]
        cases acc <;> simp [optMin]
      | node rl rk rv rr =>
        have hmr := minGT_all_gt hbr har (by simp)
        rw [hmr]
        simp only [succLoop, if_pos rfl]
        cases acc with
        | none => simp [optMin]
        | some s => simp [optMin]
    · by_cases hlt : key < k
      · have hnotr : key ∉ r.keysList := by
          intro hx
          have := (allB_iff _ _).1 har key hx
          simp at this
          omega
        have hmemiff : (key ∈ (Tree.node l k v r).keysList) ↔ key ∈ l.keysList := by
          rw [keysList_node]
          simp [hne, hnotr]
        have hkl : k ∉ l.keysList := by
          intro hx
          have := (allB_iff _ _).1 hal k hx
          simp at this
        have hacc2 : ∀ a, optMin (some (k, v)) acc = some a →
            key < a.1 ∧ a.1 ∉ l.keysList := by
          intro a ha
          cases acc with
          | none =>
            simp [optMin] at ha
            rw [← ha]
            exact ⟨hlt, hkl⟩
          | some s =>
            obtain ⟨hs1, hs2⟩ := hacc s rfl
            simp only [optMin, Option.some.injEq] at ha
            by_cases hks : k < s.1
            · rw [if_pos hks] at ha
              rw [← ha]
              exact ⟨hlt, hkl⟩
            · rw [if_neg hks] at ha
              rw [← ha]
              refine ⟨hs1, fun hx => hs2 ?_⟩
              rw [keysList_node]
              simp
              tauto
        have IH := ihl (optMin (some (k, v)) acc) hbl hacc2
        have hstep : succLoop key (Tree.node l k v r) acc
            = succLoop key l (optMin (some (k, v)) acc) := by
          simp only [succLoop, if_neg hne, if_pos hlt]
          congr 1
          cases acc with
          | none => rfl
          | some s => by_cases hks : k < s.1 <;> simp [optMin, hks]
        rw [hstep, IH]
        simp only [hmemiff]
        by_cases hmem : key ∈ l.keysList
        · simp only [if_pos hmem]
          have hgtnode : minGT key (Tree.node l k v r)
              = optMin (minGT key l) (some (k, v)) := by
            rw [minGT, if_pos hlt]
          have hassoc : optMin (optMin (minGT key l) (some (k, v))) acc
              = optMin (minGT key l) (optMin (some (k, v)) acc) := by
            refine optMin_assoc ?_ ?_ ?_
            · intro x y hx hy
              cases hy
              have hxl : x.1 ∈ l.keysList := mem_keysList.2 ⟨_, minGT_mem hx⟩
              have := (allB_iff _ _).1 hal x.1 hxl
              simp at this
              omega
            · intro x y hx hy
              obtain ⟨_, hy2⟩ := hacc y hy
              have hxl : x.1 ∈ l.keysList := mem_keysList.2 ⟨_, minGT_mem hx⟩
              intro heq
              apply hy2
              rw [keysList_node]
              simp
              left
              rw [← heq]
              exact hxl
            · intro x y hx hy
              cases hx
              obtain ⟨_, hy2⟩ := hacc y hy
              intro heq
              apply hy2
              rw [keysList_node]
              simp
              right
              left
              omega
          rw [hgtnode, hassoc]
        · simp [hmem]
      · have hkgt : k < key := by omega
        have hnotl : key ∉ l.keysList := by
          intro hx
          have := (allB_iff _ _).1 hal key hx
          simp at this
          omega
        have hmemiff : (key ∈ (Tree.node l k v r).keysList) ↔ key ∈ r.keysList := by
          rw [keysList_node]
          simp [hne, hnotl]
        have hacc2 : ∀ a, acc = some a → key < a.1 ∧ a.1 ∉ r.keysList := by
          intro a ha
          obtain ⟨h1, h2⟩ := hacc a ha
          refine ⟨h1, fun hx => h2 ?_⟩
          rw [keysList_node]
          simp
          tauto
        have IH := ihr acc hbr hacc2
        have hstep : succLoop key (Tree.node l k v r) acc = succLoop key r acc := by
          simp only [succLoop, if_neg hne, if_neg hlt]
        have hgtnode : minGT key (Tree.node l k v r) = minGT key r := by
          rw [minGT, if_neg hlt]
        rw [hstep, IH, hgtnode]
        simp only [hmemiff]

/-- C1.  The specification says `get_value(key)` signals `KeyNotFound`
for every absent key.  In this source the `raise KeyError(str(key))` is
commented out, so the lookup loop falls through and returns Python's
`None` instead of raising: on the one-item tree `1 ↦ 10`, looking up
the absent key `2` returns `None` without signalling. -/
theorem get_value_absent_returns_none_bug :
    2 ∉ demoT1.keysList ∧ get_value demoT1 2 = .ok none := by
  decide

/-- C2.  The specification says `contains(key)` returns `False` for
every absent key.  `__contains__` relies on catching the `KeyError`
that `get_value` is supposed to raise; with that raise commented out no
exception ever escapes, so membership reports `True` for the absent
key `2` of the one-item tree `1 ↦ 10`. -/
theorem contains_absent_returns_true_bug :
    2 ∉ demoT1.keysList ∧ containsKey demoT1 2 = true := by
  decide

/-- C3.  The specification says the union's value for a key present
only in the other operand is that operand's value (first operand that
actually contains the key wins).  `_multi_tree_get` tries `tree[key]`
and skips to the next tree only on `KeyError`; since `get_value` never
raises, it always returns the first tree's result, which is `None` for
an absent key: `union({}, {1: 5})` maps `1` to `None`, not to `5`. -/
theorem union_first_writer_wins_bug :
    demoU.keysList = [1] ∧ get_value demoU 1 = .ok (some 5) ∧
      (union .leaf demoU).inorder = [(1, none)] := by
  decide

/-- C4 counterexample.  The claim says all five operations fail with
the same `EmptyCollection` error kind on a zero-item tree, but
`pop_item` raises `KeyError` (`raise KeyError("pop_item(): tree is
empty")`) while `min_item` raises `ValueError`: the kinds differ. -/
theorem empty_tree_error_kinds_counterexample :
    min_item TreeState.empty = .error .EmptyCollection ∧
      pop_item TreeState.empty = .error .KeyNotFound ∧
      Error.EmptyCollection ≠ Error.KeyNotFound := by
  decide

/-- C4 amended.  On a zero-item tree, `min_item`, `max_item`,
`pop_min` and `pop_max` fail with `EmptyCollection` (`ValueError`),
while `pop_item` fails with `KeyNotFound` (`KeyError`); no operation
fails with any other kind. -/
theorem empty_tree_errors (s : TreeState) (h : s.count = 0) :
    min_item s = .error .EmptyCollection ∧
      max_item s = .error .EmptyCollection ∧
      pop_min s = .error .EmptyCollection ∧
      pop_max s = .error .EmptyCollection ∧
      pop_item s = .error .KeyNotFound := by
  have he : is_empty s = true := by simp [is_empty, h]
  simp [min_item, max_item, pop_min, pop_max, pop_item, he]

theorem empty_tree_errors_witness :
    TreeState.empty.count = 0 ∧
      (min_item TreeState.empty = .error .EmptyCollection ∧
        max_item TreeState.empty = .error .EmptyCollection ∧
        pop_min TreeState.empty = .error .EmptyCollection ∧
        pop_max TreeState.empty = .error .EmptyCollection ∧
        pop_item TreeState.empty = .error .KeyNotFound) :=
  ⟨rfl, empty_tree_errors TreeState.empty rfl⟩

/-- C5.  After any sequence of operations on an initially empty tree
(inserts, removes — including two-child removals — and clears), the
in-order key traversal is strictly ascending, hence the keys are
pairwise distinct. -/
theorem bst_invariant_all_runs (ops : List Op) :
    List.Sorted (· < ·) ((run ops).root.keysList) ∧
      ((run ops).root.keysList).Nodup := by
  have hs := sorted_keysList (inv_run ops).1
  exact ⟨hs, hs.nodup⟩

/-- C6.  After any sequence of operations on an initially empty tree,
the stored `_count` equals the number of nodes reachable from the root,
that is, the length of the full in-order traversal. -/
theorem count_eq_reachable_all_runs (ops : List Op) :
    (run ops).count = ((run ops).root.inorder).length := by
  rw [(inv_run ops).2, size_eq_length_inorder]

/-- C7 counterexample.  The claim says `succ_item` fails only when the
key is the maximum or when the key is absent and no larger key was
visited.  On the one-item tree `5 ↦ 5`, the query key `3` is absent but
the larger key `5` is visited during the descent (and is a valid
successor), yet the code raises `KeyError`: `succ_item` fails on every
absent key. -/
theorem succ_item_absent_counterexample :
    3 ∉ demo5.keysList ∧ 5 ∈ demo5.keysList ∧ 3 < 5 ∧
      succ_item demo5 3 = .error .KeyNotFound := by
  decide

/-- C7 amended.  For a search tree, `succ_item(key)` fails with
`KeyNotFound` on every absent key (even when larger keys were visited);
on a present key it returns the `(key, value)` item with the smallest
tree key strictly greater than the query key, failing with
`KeyNotFound` exactly when no such key exists (the query key is the
maximum).  Walking it from the minimum key therefore visits every key
in ascending order. -/
theorem succ_item_spec (t : Tree) (hb : bstB t = true) (key : Nat) :
    (key ∉ t.keysList → succ_item t key = .error .KeyNotFound) ∧
    (key ∈ t.keysList →
      succ_item t key =
        match ((t.inorder).filter (fun kv => decide (key < kv.1))).head? with
        | some kv => .ok kv
        | none => .error .KeyNotFound) := by
  have h := @succLoop_eq key t none hb (fun a ha => by cases ha)
  constructor
  · intro hnot
    rw [succ_item, h, if_neg hnot]
  · intro hmem
    rw [succ_item, h, if_pos hmem, optMin_none_right, minGT_eq_filter_head hb]

theorem succ_item_spec_witness :
    bstB demoS3.root = true ∧ 2 ∈ demoS3.root.keysList ∧
      succ_item demoS3.root 2 = .ok (3, some 30) := by
  refine ⟨by decide, by decide, ?_⟩
  have h := (succ_item_spec demoS3.root (by decide) 2).2 (by decide)
  rw [h]
  decide

/-- C8.  For a search tree, the bounded traversal emits exactly the
items whose keys satisfy `start ≤ key < end` (an absent bound imposing
no constraint, an absent start being equivalent to defaulting to the
minimum key), in ascending key order, or descending when `reverse` is
set; over the keys 1, 2, 3, 4, 8, 9, 10, 11, the slice from 2 to 8
yields exactly the keys 2, 3, 4, the slice up to 4 yields 1, 2, 3, and
the slice from 8 on yields 8, 9, 10, 11. -/
theorem iter_items_range_spec (s : TreeState) (hb : bstB s.root = true)
    (hc : s.count = s.root.size) (a e : Option Nat) (rev : Bool) :
    (iter_items s a e rev =
      if rev then ((s.root.inorder).filter (fun kv => specInRange a e kv.1)).reverse
      else (s.root.inorder).filter (fun kv => specInRange a e kv.1)) ∧
    (iter_items sliceDemo (some 2) (some 8) false).map Prod.fst = [2, 3, 4] ∧
    (iter_items sliceDemo none (some 4) false).map Prod.fst = [1, 2, 3] ∧
    (iter_items sliceDemo (some 8) none false).map Prod.fst = [8, 9, 10, 11] := by
  have hgen : ∀ (s2 : TreeState), bstB s2.root = true → s2.count = s2.root.size →
      ∀ (a2 e2 : Option Nat) (rev2 : Bool),
      iter_items s2 a2 e2 rev2 =
        if rev2 then
          ((s2.root.inorder).filter (fun kv => specInRange a2 e2 kv.1)).reverse
        else (s2.root.inorder).filter (fun kv => specInRange a2 e2 kv.1) := by
    intro s2 hb2 hc2 a2 e2 rev2
    rw [iter_items_eq s2 hc2 a2 e2 rev2]
    have hcong : (s2.root.inorder).filter (fun kv => in_range_fun s2 a2 e2 kv.1)
        = (s2.root.inorder).filter (fun kv => specInRange a2 e2 kv.1) := by
      refine List.filter_congr ?_
      intro kv hkv
      exact in_range_eq_spec hb2 a2 e2 kv.1 (mem_keysList.2 ⟨kv.2, by simpa using hkv⟩)
    rw [hcong]
  refine ⟨hgen s hb hc a e rev, ?_, ?_, ?_⟩
  · rw [hgen sliceDemo (by decide) (by decide) (some 2) (some 8) false]
    decide
  · rw [hgen sliceDemo (by decide) (by decide) none (some 4) false]
    decide
  · rw [hgen sliceDemo (by decide) (by decide) (some 8) none false]
    decide

theorem iter_items_range_spec_witness :
    bstB sliceDemo.root = true ∧ sliceDemo.count = sliceDemo.root.size ∧
      iter_items sliceDemo (some 2) (some 8) false
        = (sliceDemo.root.inorder).filter (fun kv => specInRange (some 2) (some 8) kv.1) := by
  refine ⟨by decide, by decide, ?_⟩
  have h := (iter_items_range_spec sliceDemo (by decide) (by decide)
    (some 2) (some 8) false).1
  simpa using h

/-- C9.  Exporting the full item sequence and rebuilding a fresh tree
from it (the `__getstate__`/`__setstate__` round trip: export, then
`update` into a freshly constructed tree) yields a tree holding exactly
the same key/value pairs as the original. -/
theorem export_import_roundtrip (s : TreeState) (hb : bstB s.root = true)
    (hc : s.count = s.root.size) :
    ∀ kv : Nat × PyVal,
      kv ∈ (importState (exportItems s)).root.inorder ↔ kv ∈ s.root.inorder := by
  intro kv
  rw [import_export s hb hc]

theorem export_import_roundtrip_witness :
    bstB demoS3.root = true ∧ demoS3.count = demoS3.root.size ∧
      ((2, some 20) ∈ (importState (exportItems demoS3)).root.inorder ↔
        (2, some 20) ∈ demoS3.root.inorder) :=
  ⟨by decide, by decide,
    export_import_roundtrip demoS3 (by decide) (by decide) (2, some 20)⟩

/-- C10.  Removing a key that is not in the tree (including from the
empty tree) raises `KeyError` and leaves the state completely
unchanged: the descent mutates nothing before the raise, so the count
and every stored pair are as before. -/
theorem failed_remove_atomic (s : TreeState) (k : Nat)
    (h : k ∉ s.root.keysList) :
    removeOp s k = .error .KeyNotFound ∧ applyOp s (.del k) = s := by
  have hr := @remove_notin s.root k h
  refine ⟨?_, ?_⟩
  · simp [removeOp, hr]
  · simp [applyOp, removeOp, hr]

theorem failed_remove_atomic_witness :
    9 ∉ demoS3.root.keysList ∧
      (removeOp demoS3 9 = .error .KeyNotFound ∧
        applyOp demoS3 (Op.del 9) = demoS3) :=
  ⟨by decide, failed_remove_atomic demoS3 9 (by decide)⟩

end BinTreesPy
